import Mathlib

/-!
# Verification of the `ligno` logging core (formatter.go, context/record, handlers)

This file shallowly embeds the Go sources of the `ligno` repository:

* `src/formatter.go` — the four formatters (`SimpleFormat`, `ThemedTerminalFormat`,
  `JSONFormat`, `LogFmtFormat`), the value encoder `formatLogfmtValue` and
  `escapeString`;
* `src/unnamed/part_000` — the `Ctx` map with its `merge` method and the `Record`
  data model;
* `src/unnamed/part_001` — the handler combinators, in particular
  `combiningHandler.Handle`.

Modelling conventions:

* Go strings (and the byte buffers the formatters build) are modelled as
  `List Char` (`GoStr`), matching Go's per-rune iteration (`for _, r := range s`).
* A Go `panic` (failed bare type assertion, out-of-range index, `bytes.Repeat`
  with a negative count) is modelled as `Option.none`; a formatter that returns
  normally produces `some` output.
* Formatters additionally return the post-call contents of the record's
  `ContextList` slice, so that (absence of) in-place mutation of the shared
  static context is an explicit, checkable effect.  Only `JSONFormat` assigns
  into `record.ContextList`; the other formatters' translations thread it
  through unchanged, exactly as the source never assigns to it.
* `time.Time` values are opaque: a `GoTime` carries the two renderings the code
  can extract from it (`Format(DefaultTimeFormat)` and `fmt.Sprintf("%+v", ·)`).
  Similarly `Level` carries the result of its `String()` method.
* Finite floating point values are modelled by their exact rational value
  (every finite IEEE float is a rational); `strconv.FormatFloat(v, 'f', 3, 64)`
  is modelled as correctly-rounded (ties to even) fixed-point rendering with
  three fractional digits.
* Go maps are modelled as association lists with unique keys built by the map
  assignment operation `mapAssign`; `mapLookup` reads them.
-/

/-- Go strings / byte buffers, as their sequence of runes. -/
abbrev GoStr := List Char

/-- Converts a Lean string literal to the `GoStr` it denotes. -/
def gs (s : String) : GoStr := s.data

/-- The digit character for `n % 10` (Go's decimal digit emission). -/
def digitChar (n : Nat) : Char := Char.ofNat (48 + n % 10)

/-- Base-10 digit emission with explicit fuel (the fuel is always sufficient;
it only makes the recursion structural). -/
def natDecAux : Nat → Nat → GoStr
  | 0, _ => []
  | fuel + 1, n =>
    if n < 10 then [digitChar n]
    else natDecAux fuel (n / 10) ++ [digitChar (n % 10)]

/-- Base-10 rendering of a natural number, as Go's `strconv`/`fmt` produce it. -/
def natDec (n : Nat) : GoStr := natDecAux (n + 1) n

/-- Base-10 rendering of a Go integer (`fmt.Sprintf("%d", ·)` / `strconv.Itoa`):
plain digits, a leading `-` exactly for negative values. -/
def intDec (n : Int) : GoStr :=
  if n < 0 then '-' :: natDec n.natAbs else natDec n.natAbs

/-- The quoting trigger of `escapeString` (`formatter.go:252`):
any rune `≤ ' '`, `=` or `"`. -/
def escNeedsQuotes (r : Char) : Bool := r ≤ ' ' || r = '=' || r = '"'

/-- The escaping trigger of `escapeString` (`formatter.go:255`):
backslash, double quote, newline, carriage return or tab. -/
def escNeedsEscape (r : Char) : Bool :=
  r = '\\' || r = '"' || r = '\n' || r = '\r' || r = '\t'

/-- One iteration of the write loop of `escapeString` (`formatter.go:266-280`). -/
def escChar (r : Char) : GoStr :=
  if r = '\\' || r = '"' then ['\\', r]
  else if r = '\n' then ['\\', 'n']
  else if r = '\r' then ['\\', 'r']
  else if r = '\t' then ['\\', 't']
  else [r]

/-- `escapeString` (`formatter.go:248-291`): scan for the two flags, return the
input unchanged if neither is set, otherwise build the quoted escaped copy and
strip the surrounding quotes again when only escaping (not quoting) was needed. -/
def escapeString (s : GoStr) : GoStr :=
  let needsQuotes := s.any escNeedsQuotes
  let needsEscape := s.any escNeedsEscape
  if needsEscape = false ∧ needsQuotes = false then s
  else
    let e : GoStr := '"' :: s.flatMap escChar ++ ['"']
    if needsQuotes then e else (e.drop 1).dropLast

/-- Three zero-padded decimal digits of `n % 1000`. -/
def pad3 (n : Nat) : GoStr := [digitChar (n / 100), digitChar (n / 10), digitChar n]

/-- `|q| * 1000` rounded to the nearest natural number, ties to even — the
rounding of `strconv.FormatFloat` with a fixed precision, computed on the
numerator and denominator of the exact rational value. -/
def roundScaled (q : ℚ) : Nat :=
  let n := q.num.natAbs * 1000
  let d := q.den
  if 2 * (n % d) < d then n / d
  else if d < 2 * (n % d) then n / d + 1
  else if n / d % 2 = 0 then n / d else n / d + 1

/-- Models `strconv.FormatFloat(v, floatFormat, 3, 64)` (`formatter.go:236-238`)
on the finite value `q`: sign of the value, then fixed-point notation with
exactly three digits after the decimal point, correctly rounded. -/
def formatFloat (q : ℚ) : GoStr :=
  let m := roundScaled q
  (if q.num < 0 then ['-'] else []) ++ natDec (m / 1000) ++ '.' :: pad3 (m % 1000)

/-- A `time.Time`, abstracted to the two renderings the code extracts from it:
`Format(DefaultTimeFormat)` (RFC3339Nano) and `fmt.Sprintf("%+v", ·)`. -/
structure GoTime where
  rfc : GoStr
  plusv : GoStr
deriving DecidableEq

/-- A `Level`, abstracted to the result of its `String()` method (the level
ordering lives in the excluded front-end and is not needed here). -/
structure GoLevel where
  name : GoStr
deriving DecidableEq

/-- A Go `interface{}` value as it can occur in a record's key/value pair
lists.  `other` carries the `fmt.Sprintf("%+v", ·)` rendering of a value of
any type not treated specially by the code. -/
inductive Value where
  | str (s : GoStr)
  | int (n : Int)
  | float (q : ℚ)
  | bool (b : Bool)
  | time (t : GoTime)
  | level (l : GoLevel)
  | nil
  | other (repr : GoStr)
deriving DecidableEq

/-- `fmt.Sprintf("%+v", v)` for the values of `Value`.  Integers and booleans
print as their decimal/`true`/`false` forms; `time.Time` and `Level` print via
their carried rendering; a `nil` interface prints as `<nil>`.  The digits of
the float rendering are irrelevant to every claim; they are modelled by the
fixed-point rendering. -/
def sprintfPlusV : Value → GoStr
  | .str s => s
  | .int n => intDec n
  | .float q => formatFloat q
  | .bool b => if b then gs "true" else gs "false"
  | .time t => t.plusv
  | .level l => l.name
  | .nil => gs "<nil>"
  | .other r => r

/-- `formatLogfmtValue` (`formatter.go:220-246`): `nil` first, then `time.Time`
via the default layout, then the type switch (booleans, floats with three
fractional digits, all integer widths as `%d`, strings escaped, everything
else `%+v`-rendered and escaped).  `Level` is a named type, so it does not
match the integer cases of the type switch and falls to the default branch. -/
def formatLogfmtValue : Value → GoStr
  | .nil => gs "nil"
  | .time t => t.rfc
  | .bool b => if b then gs "true" else gs "false"
  | .float q => formatFloat q
  | .int n => intDec n
  | .str s => escapeString s
  | .level l => escapeString (sprintfPlusV (.level l))
  | .other r => escapeString (sprintfPlusV (.other r))

/-- The IEEE-754 float literal `3.14159`, as an exact rational constructed
without normalization (kernel `Nat.gcd` does not reduce). -/
def ratPi5 : ℚ := Rat.mk' 314159 100000 (by norm_num) (by norm_num)


/-- The `Record` struct (`src/unnamed/part_000:21-30`).  The non-owning
`Logger` back-reference is never read by the code in scope and is omitted. -/
structure Record where
  Time : GoTime
  Level : GoLevel
  Message : GoStr
  ContextList : List Value
  Pairs : List Value
  File : GoStr
  Line : Int
deriving DecidableEq

/-- The `errorKey` constant (`formatter.go:18`). -/
def errorKey : GoStr := gs "PARSE_ERROR"

/-- Go's two-valued string type assertion `v.(string)`: the string and `true`
on success, the zero value `""` and `false` otherwise. -/
def goStringAssert : Value → GoStr × Bool
  | .str s => (s, true)
  | _ => ([], false)

/-- Go's bare string type assertion `v.(string)`: `none` models the panic on a
non-string value. -/
def goStringAssertP : Value → Option GoStr
  | .str s => some s
  | _ => none

/-- `true` iff the list has even length, phrased by the two-step walk the
formatters' `i += 2` loops take. -/
def evenPairs : List Value → Bool
  | [] => true
  | _ :: _ :: rest => evenPairs rest
  | [_] => false

/-- `true` iff the list is a well-formed field list for the panicking
formatters: even length with a string at every even (key) index. -/
def wellFormed : List Value → Bool
  | [] => true
  | k :: _ :: rest => (goStringAssert k).2 && wellFormed rest
  | [_] => false

/-- Splits a field list into key/value pairs; `none` models the
index-out-of-range panic of `pairs[i+1]` on an odd-length list. -/
def chunkPairs : List Value → Option (List (Value × Value))
  | [] => some []
  | [_] => none
  | k :: v :: rest => (chunkPairs rest).map ((k, v) :: ·)

/-- The three default fields prepended by the Terminal, JSON and LogFmt
formatters (`formatter.go:87-91,142-146,183-187`). -/
def defaultTriple (r : Record) : List Value :=
  [.str (gs "ts"), .time r.Time, .str (gs "lvl"), .level r.Level,
   .str (gs "msg"), .str r.Message]

/-- The call-site fields appended by the JSON and LogFmt formatters when
`record.Line > 0` (`formatter.go:148-153,189-194`). -/
def callSuffix (r : Record) : List Value :=
  [.str (gs "file"), .str r.File, .str (gs "line"), .int r.Line]

/-- The field list the LogFmt formatter assembles (`formatter.go:180-194`):
`Pairs = append(ContextList, Pairs...)`, then the default triple in front,
then `file`/`line` when `Line > 0`. -/
def assembledPairs (r : Record) : List Value :=
  let pairs := r.ContextList ++ r.Pairs
  let pairs := defaultTriple r ++ pairs
  if 0 < r.Line then pairs ++ callSuffix r else pairs

/-- `SimpleFormat` (`formatter.go:39-57`): timestamp, space, message, space,
the bracketed location only when `File != "" && Line > 0`, newline.  It can
never panic, so it returns a plain string. -/
def SimpleFormat (r : Record) : GoStr :=
  let buff : GoStr := []
  let buff := buff ++ r.Time.rfc
  let buff := buff ++ [' ']
  let buff := buff ++ r.Message
  let buff := buff ++ [' ']
  let buff :=
    if r.File ≠ [] ∧ 0 < r.Line then
      buff ++ ('[' :: r.File) ++ (':' :: intDec r.Line) ++ [']']
    else buff
  buff ++ ['\n']

/-- The key/value strings one iteration of the LogFmt loop emits
(`formatter.go:203-207`): on a failed assertion the key becomes `errorKey`
and the value re-encodes `k` — which at that point holds the zero value `""`
of the failed assertion, not the original key. -/
def logFmtKV (key v : Value) : GoStr × GoStr :=
  let a := goStringAssert key
  let vs := formatLogfmtValue v
  if a.2 then (a.1, vs) else (errorKey, formatLogfmtValue (.str a.1))

/-- The `k=v` fragment one iteration of the LogFmt loop writes. -/
def renderKV (key v : Value) : GoStr :=
  (logFmtKV key v).1 ++ '=' :: (logFmtKV key v).2

/-- The LogFmt encoding loop (`formatter.go:198-212`): a space before every
pair except the first; `none` models the out-of-range panic on an odd-length
list. -/
def logFmtLoop (first : Bool) : List Value → Option GoStr
  | [] => some []
  | [_] => none
  | k :: v :: rest =>
    (logFmtLoop false rest).map
      (fun t => (if first then [] else [' ']) ++ renderKV k v ++ t)

/-- `LogFmtFormat` (`formatter.go:178-217`).  Besides the output (or `none`
for a panic) it returns the record's `ContextList` after the call, which the
function never assigns to. -/
def LogFmtFormat (r : Record) : Option GoStr × List Value :=
  ((logFmtLoop true (assembledPairs r)).map (· ++ ['\n']), r.ContextList)

/-! ### Go maps (for `JSONFormat`'s `tmpMap` and for `Ctx`)

A Go map is modelled as an association list whose keys are kept unique by the
assignment operation.  Iteration order of a Go map is unspecified; nothing
below depends on the order of the entries, only on `mapLookup`. -/

/-- A Go `map[string]interface{}`. -/
abbrev GoMap := List (GoStr × Value)

/-- Membership test for a key. -/
def mapHasKey : GoMap → GoStr → Bool
  | [], _ => false
  | p :: t, k => p.1 = k || mapHasKey t k

/-- The Go map assignment `m[k] = v`: replace the entry if the key is
present, otherwise add a new entry. -/
def mapAssign (m : GoMap) (k : GoStr) (v : Value) : GoMap :=
  if mapHasKey m k then m.map (fun p => if p.1 = k then (k, v) else p)
  else m ++ [(k, v)]

/-- The Go map read `m[k]`. -/
def mapLookup : GoMap → GoStr → Option Value
  | [], _ => none
  | p :: t, k => if p.1 = k then some p.2 else mapLookup t k

/-- The `tmpMap` loop of `JSONFormat` (`formatter.go:155-158`):
`tmpMap[Pairs[i].(string)] = Pairs[i+1]`.  `none` models the panic, either of
the bare assertion on a non-string key or of an out-of-range `Pairs[i+1]`. -/
def buildTmpMap (m : GoMap) : List Value → Option GoMap
  | [] => some m
  | [_] => none
  | k :: v :: rest =>
    match goStringAssertP k with
    | none => none
    | some ks => buildTmpMap (mapAssign m ks v) rest

/-- The field list `JSONFormat` assembles (`formatter.go:134-153`): it first
overwrites every `ContextList` element in place with its `%+v` rendering,
then builds the same list shape as LogFmt from the rewritten context. -/
def jsonAssembled (r : Record) : List Value :=
  let ctx := r.ContextList.map (fun v => Value.str (sprintfPlusV v))
  let pairs := ctx ++ r.Pairs
  let pairs := defaultTriple r ++ pairs
  if 0 < r.Line then pairs ++ callSuffix r else pairs

/-- `JSONFormat` (`formatter.go:130-176`), up to the final `json.Marshal` of
the map (serialization of a `map[string]interface{}` to bytes is Go library
code outside this repository; every claim about `JSONFormat` concerns the map
and the in-place rewrite of `ContextList`, so the formatter is modelled as
returning the map, or `none` for a panic, together with the contents of
`record.ContextList` after the call — which the `for idx := range` loop has
overwritten element by element with `fmt.Sprintf("%+v", ·)`). -/
def JSONFormat (r : Record) : Option GoMap × List Value :=
  (buildTmpMap [] (jsonAssembled r),
   r.ContextList.map (fun v => Value.str (sprintfPlusV v)))

/-- `needsQuote` (`formatter.go:124-127`).  `unicode.IsPrint` is Go library
code; it is modelled as "not a control character", which agrees with it on
ASCII.  No claim depends on which keys the Terminal formatter quotes. -/
def needsQuote (r : Char) : Bool :=
  r = ' ' || r = '"' || r = '\\' || r = '=' || (r.toNat < 32 || r.toNat = 127)

/-- A theme: `ForLevel` yields a colouring function applied to the level
name (`formatter.go:77-79`). -/
abbrev Theme := GoLevel → GoStr → GoStr

/-- The key/value loop of `ThemedTerminalFormat` (`formatter.go:96-113`):
quote the key when empty or containing a `needsQuote` rune, always quote the
`%+v`-rendered value, space after each pair except the last.  `none` models
the panic of the bare assertion `record.Pairs[i].(string)` or of an
out-of-range `record.Pairs[i+1]`. -/
def termPairsLoop : List Value → Option GoStr
  | [] => some []
  | [_] => none
  | k :: v :: rest =>
    match goStringAssertP k with
    | none => none
    | some ks =>
      let keyQuote := ks.any needsQuote || ks = []
      let frag := (if keyQuote then '"' :: ks ++ ['"'] else ks) ++
        '=' :: '"' :: sprintfPlusV v ++ ['"']
      match rest with
      | [] => some frag
      | _ :: _ => (termPairsLoop rest).map (fun t => frag ++ ' ' :: t)

/-- `ThemedTerminalFormat` (`formatter.go:70-120`).  `levelNameMaxLength` is a
constant of the excluded level source and is taken as a parameter.
`bytes.Repeat` panics on a negative count (`maxLen - len(levelName) + 2 < 0`),
modelled as `none`.  The field list is the default triple, then `ContextList`,
then `Pairs` — no `file`/`line` here — and it is never empty, but the
`len(record.Pairs) > 0` guards of the source are kept. -/
def ThemedTerminalFormat (maxLen : Nat) (theme : Theme) (r : Record) :
    Option GoStr × List Value :=
  let levelName := r.Level.name
  let padSpaces : Int := (maxLen : Int) - levelName.length + 2
  let pairs := r.ContextList ++ r.Pairs
  let pairs := defaultTriple r ++ pairs
  if padSpaces < 0 then (none, r.ContextList)
  else
    let buff := theme r.Level levelName ++ List.replicate padSpaces.toNat ' ' ++
      [' '] ++ r.Message
    let buff := if 0 < pairs.length then buff ++ [' ', '['] else buff
    match termPairsLoop pairs with
    | none => (none, r.ContextList)
    | some body =>
      let buff := buff ++ body
      let buff := if 0 < pairs.length then buff ++ [']'] else buff
      (some (buff ++ ['\n']), r.ContextList)

/-! ### `Ctx` and `merge` (`src/unnamed/part_000`) -/

/-- `Ctx` is `map[string]interface{}`. -/
abbrev Ctx := GoMap

/-- `Ctx.merge` (`src/unnamed/part_000:9-18`): make a new map, copy the
receiver's entries into it, copy the argument's entries over them, return it.
The Go code only ever assigns into `newCtx`, so the translation returns the
two inputs as the (unchanged) post-call states alongside the result. -/
def Ctx.merge (ctx other : Ctx) : Ctx × Ctx × Ctx :=
  let newCtx : Ctx := []
  let newCtx := ctx.foldl (fun m p => mapAssign m p.1 p.2) newCtx
  let newCtx := other.foldl (fun m p => mapAssign m p.1 p.2) newCtx
  (newCtx, ctx, other)

/-- A Go map never holds two entries with the same key. -/
def keysNodup (m : GoMap) : Prop := (m.map Prod.fst).Nodup

instance (m : GoMap) : Decidable (keysNodup m) := by
  unfold keysNodup; infer_instance

/-! ### Handlers (`src/unnamed/part_001`)

A handler is `Handle(Record) error`; an error is modelled as
`Option GoStr` (`none` = `nil`).  A handler may hold state (an open file, a
buffer); the state is threaded explicitly. -/

/-- A stateful handler over state type `σ`. -/
structure HandlerM (σ : Type) where
  handle : Record → σ → σ × Option GoStr

/-- `combiningHandler.Handle` (`src/unnamed/part_001:97-103`):
`var err error; for _, h := range ch.Handlers { err = h.Handle(record) };
return err` — every sub-handler runs, each result overwrites `err`. -/
def combiningHandle {σ : Type} (hs : List (HandlerM σ)) (r : Record) (s : σ) :
    σ × Option GoStr :=
  hs.foldl (fun acc h => h.handle r acc.1) (s, none)

/-- An instrumented sub-handler: appends its tag to the trace state and
returns a fixed result, so that the combining handler's invocation pattern
becomes observable. -/
def tagged (tag : Nat) (f : Record → Option GoStr) : HandlerM (List Nat) :=
  ⟨fun r s => (s ++ [tag], f r)⟩

/-! ### Specification-side auxiliary definitions -/

/-- A character the claim about `escapeString` calls special: `≤ ' '`, `=`,
`"`, backslash, newline, carriage return or tab. -/
def specialCharB (r : Char) : Bool :=
  r ≤ ' ' || r = '=' || r = '"' || r = '\\' || r = '\n' || r = '\r' || r = '\t'

/-- Brute-force contiguous-substring test, for concrete statements about what
an output does or does not contain. -/
def isSubstr (pat s : GoStr) : Bool :=
  (List.range (s.length + 1)).any (fun i => (s.drop i).take pat.length = pat)

/-- Joins fragments with a single space between consecutive ones. -/
def joinSpace : List GoStr → GoStr
  | [] => []
  | f :: t => f ++ t.flatMap (fun g => ' ' :: g)

/-- The fragments the tail of the LogFmt loop contributes: a space, then the
pair's `k=v` rendering, for each pair. -/
def spacedTail (ps : List (Value × Value)) : GoStr :=
  ps.flatMap (fun p => ' ' :: renderKV p.1 p.2)

/-- What a LogFmt line body should be, per pair: the first pair's rendering,
then one space-prefixed rendering per further pair. -/
def logFmtRendered : List (Value × Value) → GoStr
  | [] => []
  | p :: t => renderKV p.1 p.2 ++ spacedTail t

/-- The fragment the Terminal loop emits for one pair, `none` for a
non-string key. -/
def termFrag (p : Value × Value) : Option GoStr :=
  (goStringAssertP p.1).map (fun ks =>
    (if ks.any needsQuote || ks = [] then '"' :: ks ++ ['"'] else ks) ++
      '=' :: '"' :: sprintfPlusV p.2 ++ ['"'])

/-- One Terminal fragment per pair, failing if any pair has a non-string key. -/
def termFrags : List (Value × Value) → Option (List GoStr)
  | [] => some []
  | p :: t =>
    match termFrag p with
    | none => none
    | some f => (termFrags t).map (f :: ·)

/-- The search target of `mapLookup` after a sequence of map assignments:
the value of the last entry of the list carrying the key. -/
def lookupLast : List (GoStr × Value) → GoStr → Option Value
  | [], _ => none
  | p :: t, k =>
    match lookupLast t k with
    | some v => some v
    | none => if p.1 = k then some p.2 else none

/-! ### Concrete inputs used by counterexamples and witnesses -/

/-- A sample timestamp (the two renderings are opaque to the code). -/
def sampleTime : GoTime := ⟨gs "T", gs "Tp"⟩

/-- A sample level. -/
def sampleLevel : GoLevel := ⟨gs "INFO"⟩

/-- A record whose dynamic pairs have the non-string key `42` (pair
`(42, "x")`). -/
def recNonStrKey : Record :=
  ⟨sampleTime, sampleLevel, gs "m", [], [.int 42, .str (gs "x")], [], 0⟩

/-- A record whose static context holds the non-string value `5`. -/
def recCtxInt : Record :=
  ⟨sampleTime, sampleLevel, gs "m", [.str (gs "k"), .int 5], [], [], 0⟩

/-- A record with the duplicate key `a` in its pairs. -/
def recDupKey : Record :=
  ⟨sampleTime, sampleLevel, gs "m", [],
   [.str (gs "a"), .int 1, .str (gs "a"), .int 2], [], 0⟩

/-- A fully populated well-formed record with a call site. -/
def recPlain : Record :=
  ⟨sampleTime, sampleLevel, gs "m", [.str (gs "k"), .str (gs "v")],
   [.str (gs "d"), .int 3], gs "f.go", 7⟩

/-- A record with `Line > 0` but an empty `File`. -/
def recNoFile : Record := ⟨sampleTime, sampleLevel, gs "m", [], [], [], 5⟩

/-- The chunked pair list of `recDupKey`'s assembled fields. -/
def dupPs : List (Value × Value) :=
  [(.str (gs "ts"), .time sampleTime), (.str (gs "lvl"), .level sampleLevel),
   (.str (gs "msg"), .str (gs "m")), (.str (gs "a"), .int 1),
   (.str (gs "a"), .int 2)]

/-- The Terminal fragments of `dupPs`. -/
def dupFs : List GoStr :=
  [gs "ts=\"Tp\"", gs "lvl=\"INFO\"", gs "msg=\"m\"", gs "a=\"1\"", gs "a=\"2\""]

/-- The JSON map built from `recDupKey` (one entry per distinct key). -/
def dupMap : GoMap :=
  [(gs "ts", .time sampleTime), (gs "lvl", .level sampleLevel),
   (gs "msg", .str (gs "m")), (gs "a", .int 2)]

/-- A sample context. -/
def ctxA : Ctx := [(gs "x", .int 1), (gs "y", .int 2)]

/-- A second sample context, sharing the key `y` with `ctxA`. -/
def ctxB : Ctx := [(gs "y", .int 9), (gs "z", .int 3)]

/-! ## Theorems -/

theorem digitChar_isDigit (n : Nat) : (digitChar n).isDigit = true := by
  unfold digitChar
  generalize hm : n % 10 = m
  have h : m < 10 := hm ▸ Nat.mod_lt _ (by omega)
  interval_cases m <;> decide

theorem natDecAux_digits (fuel n : Nat) :
    (natDecAux fuel n).all Char.isDigit = true := by
  induction fuel generalizing n with
  | zero => rfl
  | succ f ih =>
    unfold natDecAux
    split
    · simp [digitChar_isDigit]
    · simp [List.all_append, ih, digitChar_isDigit]

theorem natDec_digits (n : Nat) : (natDec n).all Char.isDigit = true :=
  natDecAux_digits (n + 1) n

theorem natDec_ne_nil (n : Nat) : natDec n ≠ [] := by
  unfold natDec natDecAux
  split <;> simp

theorem pad3_digits (n : Nat) : (pad3 n).all Char.isDigit = true := by
  simp [pad3, digitChar_isDigit]

/-- C8: the value encoder renders every (finite) floating-point value as an
optional sign, an all-digit integer part, a decimal point, and exactly three
digit characters; and every integer as plain base-10 digits with a `-` sign
exactly when the value is negative.  In particular `3.14159` renders as
`3.142` and `-42` as `-42`. -/
theorem formatLogfmtValue_numeric :
    (∀ q : ℚ, ∃ ip fr : GoStr,
      formatLogfmtValue (.float q) = (if q < 0 then ['-'] else []) ++ ip ++ '.' :: fr ∧
      fr.length = 3 ∧ fr.all Char.isDigit = true ∧
      ip ≠ [] ∧ ip.all Char.isDigit = true) ∧
    (∀ n : Int, formatLogfmtValue (.int n) = (if n < 0 then ['-'] else []) ++ natDec n.natAbs ∧
      natDec n.natAbs ≠ [] ∧ (natDec n.natAbs).all Char.isDigit = true) ∧
    formatLogfmtValue (.float ratPi5) = gs "3.142" ∧
    formatLogfmtValue (.int (-42)) = gs "-42" := by
  refine ⟨fun q => ?_, fun n => ⟨?_, natDec_ne_nil _, natDec_digits _⟩, by decide, by decide⟩
  · refine ⟨natDec (roundScaled q / 1000), pad3 (roundScaled q % 1000), ?_,
      rfl, pad3_digits _, natDec_ne_nil _, natDec_digits _⟩
    show formatFloat q = _
    by_cases hq : q < 0
    · have hn : q.num < 0 := Rat.num_neg.mpr hq
      simp [formatFloat, hn, hq]
    · have hn : ¬q.num < 0 := fun hc => hq (Rat.num_neg.mp hc)
      simp [formatFloat, hn, hq]
  · show intDec n = _
    unfold intDec
    split <;> simp_all

theorem specialChar_flags (r : Char) :
    (escNeedsQuotes r || escNeedsEscape r) = specialCharB r := by
  rw [Bool.eq_iff_iff]
  simp only [escNeedsQuotes, escNeedsEscape, specialCharB, Bool.or_eq_true,
    decide_eq_true_eq]
  tauto

theorem any_special_eq_flags (s : GoStr) :
    s.any specialCharB = (s.any escNeedsQuotes || s.any escNeedsEscape) := by
  induction s with
  | nil => rfl
  | cons c t ih =>
    simp only [List.any_cons, ih, ← specialChar_flags]
    cases escNeedsQuotes c <;> cases escNeedsEscape c <;>
      cases t.any escNeedsQuotes <;> cases t.any escNeedsEscape <;> rfl

/-- C7: `escapeString` returns its input unchanged exactly when no character
is `≤ ' '`, `=`, `"`, backslash, newline, carriage return or tab; otherwise it
returns the per-character escaped copy (backslash and quote backslash-escaped,
newline/carriage-return/tab as two-character escapes), wrapped in double
quotes exactly when some character required quoting. -/
theorem escapeString_spec (s : GoStr) :
    (s.any specialCharB = false → escapeString s = s) ∧
    (s.any specialCharB = true →
      escapeString s =
        if s.any escNeedsQuotes then '"' :: s.flatMap escChar ++ ['"']
        else s.flatMap escChar) := by
  rw [any_special_eq_flags]
  constructor
  · intro h
    rw [Bool.or_eq_false_iff] at h
    simp [escapeString, h.1, h.2]
  · intro h
    have hne : ¬(s.any escNeedsEscape = false ∧ s.any escNeedsQuotes = false) := by
      intro hc
      rw [hc.1, hc.2] at h
      exact Bool.false_ne_true h
    unfold escapeString
    rw [if_neg hne]
    by_cases hq : s.any escNeedsQuotes = true
    · simp [hq]
    · simp only [Bool.not_eq_true] at hq
      simp only [hq, if_neg Bool.false_ne_true]
      rw [List.drop_one,
        show ('"' :: s.flatMap escChar ++ ['"']).tail = s.flatMap escChar ++ ['"'] from rfl,
        List.dropLast_concat]

/-- Witness for C7: `hello` has no special character and is returned
unchanged; `a b` contains a space and is returned quoted. -/
theorem escapeString_spec_witness :
    escapeString (gs "hello") = gs "hello" ∧
    escapeString (gs "a b") =
      (if (gs "a b").any escNeedsQuotes then '"' :: (gs "a b").flatMap escChar ++ ['"']
       else (gs "a b").flatMap escChar) :=
  ⟨(escapeString_spec (gs "hello")).1 (by decide),
   (escapeString_spec (gs "a b")).2 (by decide)⟩

/-- C10: `SimpleFormat` writes timestamp, space, message, space, then the
bracketed `[file:line]` exactly when the file is non-empty and the line
positive, then a newline; without a call site (in particular when `Line > 0`
but `File` is empty) the output is `<timestamp> <message> ` followed by the
newline, with the trailing space. -/
theorem SimpleFormat_spec (r : Record) :
    SimpleFormat r = r.Time.rfc ++ [' '] ++ r.Message ++ [' '] ++
      (if r.File ≠ [] ∧ 0 < r.Line
       then '[' :: r.File ++ ':' :: intDec r.Line ++ [']'] else []) ++ ['\n'] ∧
    ((r.File = [] ∨ ¬ 0 < r.Line) →
      SimpleFormat r = r.Time.rfc ++ [' '] ++ r.Message ++ [' ', '\n']) := by
  constructor
  · unfold SimpleFormat
    by_cases h : r.File ≠ [] ∧ 0 < r.Line <;> simp [h, List.append_assoc]
  · intro h
    have h' : ¬(r.File ≠ [] ∧ 0 < r.Line) := by tauto
    unfold SimpleFormat
    simp [h', List.append_assoc]

/-- Witness for C10: a record with `Line = 5` but an empty `File` renders
with no bracketed location and with the trailing space before the newline. -/
theorem SimpleFormat_spec_witness :
    SimpleFormat recNoFile =
      recNoFile.Time.rfc ++ [' '] ++ recNoFile.Message ++ [' ', '\n'] :=
  (SimpleFormat_spec recNoFile).2 (by decide)

theorem combining_tagged_foldl (ps : List (Nat × (Record → Option GoStr)))
    (r : Record) (s0 : List Nat) (e0 : Option GoStr) :
    (ps.map fun p => tagged p.1 p.2).foldl (fun acc h => h.handle r acc.1) (s0, e0) =
      (s0 ++ ps.map Prod.fst, Option.elim ps.getLast? e0 (fun p => p.2 r)) := by
  induction ps generalizing s0 e0 with
  | nil => simp
  | cons p t ih =>
    rw [List.map_cons, List.foldl_cons,
      show (tagged p.1 p.2).handle r (s0, e0).1 = (s0 ++ [p.1], p.2 r) from rfl, ih]
    cases t with
    | nil => simp
    | cons q t' =>
      rw [List.getLast?_cons_cons]
      cases hq : (q :: t').getLast? with
      | none => simp at hq
      | some x => simp [List.append_assoc]

/-- C5: instrumenting each sub-handler to record its tag shows that the
combining handler's `Handle` runs every sub-handler exactly once, in
registration order, regardless of what the individual results are, and that
its returned error is the last sub-handler's result (`none` for an empty
handler list); in general, over any state type, appending a final sub-handler
makes its result the returned error, discarding all earlier ones. -/
theorem combiningHandle_spec (ps : List (Nat × (Record → Option GoStr))) (r : Record) :
    (combiningHandle (ps.map fun p => tagged p.1 p.2) r []).1 = ps.map Prod.fst ∧
    (combiningHandle (ps.map fun p => tagged p.1 p.2) r []).2 =
      Option.elim ps.getLast? none (fun p => p.2 r) ∧
    (∀ (σ : Type) (hs : List (HandlerM σ)) (hl : HandlerM σ) (s : σ),
      (combiningHandle (hs ++ [hl]) r s).2 =
        (hl.handle r (combiningHandle hs r s).1).2) := by
  refine ⟨?_, ?_, fun σ hs hl s => ?_⟩
  · rw [combiningHandle, combining_tagged_foldl]
    simp
  · rw [combiningHandle, combining_tagged_foldl]
  · simp [combiningHandle, List.foldl_append]

/-- Counterexample to C1: for the pair `(42, "x")` the LogFmt output carries
the fragment `PARSE_ERROR=` with an empty value — the fragment
`PARSE_ERROR=42` claimed by the spec does not occur (nor does the pair's
value `x` survive). -/
theorem nonStringKey_counterexample :
    (LogFmtFormat recNonStrKey).1 = some (gs "ts=T lvl=INFO msg=m PARSE_ERROR=\n") ∧
    isSubstr (gs "PARSE_ERROR=42") (gs "ts=T lvl=INFO msg=m PARSE_ERROR=\n") = false := by
  decide

/-- C1 (amended): for a pair whose key is not a string, the LogFmt loop
substitutes the key `PARSE_ERROR` and renders, as the value, the encoding of
the zero-value empty string left by the failed type assertion — so the
emitted fragment is `PARSE_ERROR=` with an empty value, and neither the
original key nor the pair's value is rendered. -/
theorem nonStringKey_amended (key v : Value)
    (h : (goStringAssert key).2 = false) :
    renderKV key v = errorKey ++ ['='] := by
  cases key <;> simp_all [renderKV, logFmtKV, goStringAssert, formatLogfmtValue,
    escapeString, errorKey]

/-- Witness for C1 (amended): the non-string key `42` with value `"x"`. -/
theorem nonStringKey_amended_witness :
    renderKV (Value.int 42) (Value.str (gs "x")) = errorKey ++ ['='] :=
  nonStringKey_amended (Value.int 42) (Value.str (gs "x")) (by decide)

/-- Counterexample to C3: a static context holding the integer `5` is
overwritten in place by `JSONFormat` — after the call the shared sequence
holds the string `"5"`, so it differs from the original. -/
theorem contextMutation_counterexample :
    (JSONFormat recCtxInt).2 = [Value.str (gs "k"), Value.str (gs "5")] ∧
    (JSONFormat recCtxInt).2 ≠ recCtxInt.ContextList := by
  decide

/-- C3 (amended): the Simple formatter never reads or writes the context,
the Terminal and LogFmt formatters leave the record's `ContextList` sequence
unchanged, and `JSONFormat` overwrites every element of the shared sequence
with its `%+v` string rendering. -/
theorem contextMutation_amended (r : Record) (maxLen : Nat) (theme : Theme) :
    (LogFmtFormat r).2 = r.ContextList ∧
    (ThemedTerminalFormat maxLen theme r).2 = r.ContextList ∧
    (JSONFormat r).2 = r.ContextList.map (fun v => Value.str (sprintfPlusV v)) := by
  refine ⟨rfl, ?_, rfl⟩
  unfold ThemedTerminalFormat
  dsimp only
  split
  · rfl
  · split <;> rfl

theorem evenPairs_append (a b : List Value) (h : evenPairs a = true) :
    evenPairs (a ++ b) = evenPairs b := by
  induction a using evenPairs.induct with
  | case1 => rfl
  | case2 x y rest ih => simpa [evenPairs] using ih (by simpa [evenPairs] using h)
  | case3 => simp [evenPairs] at h

theorem wellFormed_append (a b : List Value) (h : wellFormed a = true) :
    wellFormed (a ++ b) = wellFormed b := by
  induction a using wellFormed.induct with
  | case1 => rfl
  | case2 x y rest ih =>
    simp only [wellFormed, Bool.and_eq_true] at h
    simpa [wellFormed, h.1] using ih h.2
  | case3 => simp [wellFormed] at h

theorem wellFormed_evenPairs (l : List Value) (h : wellFormed l = true) :
    evenPairs l = true := by
  induction l using wellFormed.induct with
  | case1 => rfl
  | case2 x y rest ih =>
    simp only [wellFormed, Bool.and_eq_true] at h
    simpa [evenPairs] using ih h.2
  | case3 => simp [wellFormed] at h

theorem evenPairs_map_str (l : List Value) (f : Value → GoStr)
    (h : evenPairs l = true) :
    wellFormed (l.map (fun v => Value.str (f v))) = true := by
  induction l using evenPairs.induct with
  | case1 => rfl
  | case2 x y rest ih =>
    simpa [wellFormed, goStringAssert] using ih (by simpa [evenPairs] using h)
  | case3 => simp [evenPairs] at h

theorem logFmtLoop_isSome (l : List Value) (first : Bool)
    (h : evenPairs l = true) : ∃ s, logFmtLoop first l = some s := by
  induction l using evenPairs.induct generalizing first with
  | case1 => exact ⟨[], rfl⟩
  | case2 x y rest ih =>
    obtain ⟨s, hs⟩ := ih false (by simpa [evenPairs] using h)
    exact ⟨(if first then [] else [' ']) ++ renderKV x y ++ s, by
      simp [logFmtLoop, hs]⟩
  | case3 => simp [evenPairs] at h

theorem termPairsLoop_isSome (l : List Value) (h : wellFormed l = true) :
    ∃ s, termPairsLoop l = some s := by
  induction l using wellFormed.induct with
  | case1 => exact ⟨[], rfl⟩
  | case2 x y rest ih =>
    simp only [wellFormed, Bool.and_eq_true] at h
    obtain ⟨ks, hks⟩ : ∃ ks, x = Value.str ks := by
      cases x
      case str s => exact ⟨s, rfl⟩
      all_goals exact absurd h.1 (by simp [goStringAssert])
    obtain ⟨s, hs⟩ := ih h.2
    subst hks
    cases rest with
    | nil => exact ⟨_, rfl⟩
    | cons z t =>
      simp only [termPairsLoop, goStringAssertP, hs, Option.map_some]
      exact ⟨_, rfl⟩
  | case3 => simp [wellFormed] at h

theorem buildTmpMap_isSome (l : List Value) (h : wellFormed l = true) :
    ∀ m : GoMap, ∃ m', buildTmpMap m l = some m' := by
  induction l using wellFormed.induct with
  | case1 => exact fun m => ⟨m, rfl⟩
  | case2 x y rest ih =>
    intro m
    simp only [wellFormed, Bool.and_eq_true] at h
    obtain ⟨ks, hks⟩ : ∃ ks, x = Value.str ks := by
      cases x
      case str s => exact ⟨s, rfl⟩
      all_goals exact absurd h.1 (by simp [goStringAssert])
    subst hks
    obtain ⟨m', hm'⟩ := ih h.2 (mapAssign m ks y)
    exact ⟨m', by simpa [buildTmpMap, goStringAssertP] using hm'⟩
  | case3 => simp [wellFormed] at h

theorem evenPairs_defaultTriple (r : Record) (l : List Value) :
    evenPairs (defaultTriple r ++ l) = evenPairs l := rfl

theorem wellFormed_defaultTriple (r : Record) (l : List Value) :
    wellFormed (defaultTriple r ++ l) = wellFormed l := by
  simp [defaultTriple, wellFormed, goStringAssert]

theorem evenPairs_assembled (r : Record)
    (h : evenPairs (r.ContextList ++ r.Pairs) = true) :
    evenPairs (assembledPairs r) = true := by
  unfold assembledPairs
  dsimp only
  split
  · rw [List.append_assoc, evenPairs_defaultTriple,
      evenPairs_append _ _ h]
    simp [callSuffix, evenPairs]
  · rw [evenPairs_defaultTriple]
    exact h

theorem wellFormed_jsonAssembled (r : Record)
    (hctx : evenPairs r.ContextList = true) (hp : wellFormed r.Pairs = true) :
    wellFormed (jsonAssembled r) = true := by
  have hmap := evenPairs_map_str r.ContextList (fun v => sprintfPlusV v) hctx
  have h1 : wellFormed
      ((r.ContextList.map fun v => Value.str (sprintfPlusV v)) ++ r.Pairs) = true := by
    rw [wellFormed_append _ _ hmap]; exact hp
  unfold jsonAssembled
  dsimp only
  split
  · rw [List.append_assoc, wellFormed_defaultTriple, wellFormed_append _ _ h1]
    simp [callSuffix, wellFormed, goStringAssert]
  · rw [wellFormed_defaultTriple]
    exact h1

/-- Counterexample to C2: on a record whose dynamic pairs carry the
non-string key `42`, both the JSON formatter and the Terminal formatter
panic (the bare type assertion `record.Pairs[i].(string)` fails); neither
recovers with the sentinel key. -/
theorem formatNeverFails_counterexample :
    (JSONFormat recNonStrKey).1 = none ∧
    (ThemedTerminalFormat 5 (fun _ s => s) recNonStrKey).1 = none := by
  decide

/-- C2 (amended): `SimpleFormat` always returns a newline-terminated byte
sequence; `LogFmtFormat` returns a byte sequence for every even-length field
list, whatever the key values are (non-string keys are recovered via the
sentinel); `JSONFormat` returns a map whenever the static context has even
length (its values are stringified first, so non-string keys there are
harmless) and the dynamic pairs have string keys; `ThemedTerminalFormat`
returns a byte sequence when all keys are strings and the level name fits the
padding — but the JSON and Terminal formatters panic on a non-string key in
the dynamic pairs. -/
theorem formatNeverFails_amended (r : Record) (maxLen : Nat) (theme : Theme) :
    (SimpleFormat r).getLast? = some '\n' ∧
    (evenPairs (r.ContextList ++ r.Pairs) = true →
      ((LogFmtFormat r).1).isSome = true) ∧
    (evenPairs r.ContextList = true → wellFormed r.Pairs = true →
      ((JSONFormat r).1).isSome = true) ∧
    (wellFormed (r.ContextList ++ r.Pairs) = true →
      r.Level.name.length ≤ maxLen + 2 →
      ((ThemedTerminalFormat maxLen theme r).1).isSome = true) := by
  refine ⟨?_, fun h => ?_, fun hctx hp => ?_, fun hwf hlen => ?_⟩
  · unfold SimpleFormat
    dsimp only
    rw [List.getLast?_concat]
  · obtain ⟨s, hs⟩ := logFmtLoop_isSome _ true (evenPairs_assembled r h)
    simp [LogFmtFormat, hs]
  · obtain ⟨m', hm'⟩ := buildTmpMap_isSome _ (wellFormed_jsonAssembled r hctx hp) []
    simp [JSONFormat, hm']
  · have hpad : ¬((maxLen : Int) - (r.Level.name.length : Int) + 2 < 0) := by omega
    have h1 : wellFormed (defaultTriple r ++ (r.ContextList ++ r.Pairs)) = true := by
      rw [wellFormed_defaultTriple]; exact hwf
    obtain ⟨s, hs⟩ := termPairsLoop_isSome _ h1
    unfold ThemedTerminalFormat
    dsimp only
    rw [if_neg hpad, hs]
    rfl

/-- C6: the field list assembled by the LogFmt formatter is exactly
`ts, lvl, msg`, then the static context, then the dynamic pairs, then
`file, line` exactly when `Line > 0`; the JSON field list is the same with
the static context entries stringified in place; and every LogFmt output
line starts with the rendered `ts`, `lvl` and `msg` pairs. -/
theorem fieldList_spec (r : Record) :
    assembledPairs r = defaultTriple r ++ r.ContextList ++ r.Pairs ++
      (if 0 < r.Line then callSuffix r else []) ∧
    jsonAssembled r = defaultTriple r ++
      r.ContextList.map (fun v => Value.str (sprintfPlusV v)) ++ r.Pairs ++
      (if 0 < r.Line then callSuffix r else []) ∧
    (evenPairs (r.ContextList ++ r.Pairs) = true →
      ∃ rest, (LogFmtFormat r).1 = some (gs "ts=" ++ r.Time.rfc ++
        gs " lvl=" ++ escapeString r.Level.name ++
        gs " msg=" ++ escapeString r.Message ++ rest)) := by
  refine ⟨?_, ?_, fun h => ?_⟩
  · unfold assembledPairs
    dsimp only
    split <;> simp [List.append_assoc]
  · unfold jsonAssembled
    dsimp only
    split <;> simp [List.append_assoc]
  · have hz : evenPairs ((r.ContextList ++ r.Pairs) ++
        (if 0 < r.Line then callSuffix r else [])) = true := by
      rw [evenPairs_append _ _ h]
      split <;> simp [callSuffix, evenPairs]
    obtain ⟨s3, hs3⟩ := logFmtLoop_isSome _ false hz
    have hasm : assembledPairs r =
        defaultTriple r ++ ((r.ContextList ++ r.Pairs) ++
          (if 0 < r.Line then callSuffix r else [])) := by
      unfold assembledPairs
      dsimp only
      split <;> simp [List.append_assoc]
    refine ⟨s3 ++ ['\n'], ?_⟩
    show (logFmtLoop true (assembledPairs r)).map (· ++ ['\n']) = _
    rw [hasm]
    simp only [defaultTriple, List.cons_append, List.nil_append]
    simp only [logFmtLoop, hs3, Option.map_some]
    have e1 : gs "ts=" = 't' :: 's' :: '=' :: [] := rfl
    have e2 : gs " lvl=" = ' ' :: 'l' :: 'v' :: 'l' :: '=' :: [] := rfl
    have e3 : gs " msg=" = ' ' :: 'm' :: 's' :: 'g' :: '=' :: [] := rfl
    have e4 : gs "ts" = 't' :: 's' :: [] := rfl
    have e5 : gs "lvl" = 'l' :: 'v' :: 'l' :: [] := rfl
    have e6 : gs "msg" = 'm' :: 's' :: 'g' :: [] := rfl
    simp [renderKV, logFmtKV, goStringAssert, formatLogfmtValue, sprintfPlusV,
      e1, e2, e3, e4, e5, e6, List.append_assoc]

/-- Witness for C6: the prefix property evaluated on a fully populated
record. -/
theorem fieldList_spec_witness :
    ∃ rest, (LogFmtFormat recPlain).1 = some (gs "ts=" ++ recPlain.Time.rfc ++
      gs " lvl=" ++ escapeString recPlain.Level.name ++
      gs " msg=" ++ escapeString recPlain.Message ++ rest) :=
  (fieldList_spec recPlain).2.2 (by decide)

/-- Witness for C2 (amended): a fully populated well-formed record goes
through all four formatters without failure. -/
theorem formatNeverFails_amended_witness :
    (SimpleFormat recPlain).getLast? = some '\n' ∧
    ((LogFmtFormat recPlain).1).isSome = true ∧
    ((JSONFormat recPlain).1).isSome = true ∧
    ((ThemedTerminalFormat 10 (fun _ s => s) recPlain).1).isSome = true := by
  have h := formatNeverFails_amended recPlain 10 (fun _ s => s)
  exact ⟨h.1, h.2.1 (by decide), h.2.2.1 (by decide) (by decide),
    h.2.2.2 (by decide) (by decide)⟩

theorem logFmtLoop_false_eq (l : List Value) :
    logFmtLoop false l = (chunkPairs l).map spacedTail := by
  induction l using chunkPairs.induct with
  | case1 => rfl
  | case2 x => rfl
  | case3 k v rest ih =>
    simp only [logFmtLoop, chunkPairs, ih, Option.map_map]
    cases chunkPairs rest <;> simp [spacedTail]

theorem logFmtLoop_true_eq (l : List Value) :
    logFmtLoop true l = (chunkPairs l).map logFmtRendered := by
  cases l with
  | nil => rfl
  | cons k t =>
    cases t with
    | nil => rfl
    | cons v rest =>
      simp only [logFmtLoop, chunkPairs, logFmtLoop_false_eq, Option.map_map]
      cases chunkPairs rest <;> simp [logFmtRendered]

theorem chunkPairs_cons_ne_nil {z : Value} {rest : List Value}
    {ps : List (Value × Value)} (h : chunkPairs (z :: rest) = some ps) :
    ps ≠ [] := by
  cases rest with
  | nil => exact absurd h (by rw [show chunkPairs [z] = none from rfl]; simp)
  | cons w r =>
    simp only [chunkPairs] at h
    cases hc : chunkPairs r with
    | none => rw [hc] at h; simp at h
    | some ps' =>
      rw [hc, Option.map_some'] at h
      simp only [Option.some.injEq] at h
      rw [← h]
      simp

theorem termFrags_ne_nil {ps : List (Value × Value)} {fs : List GoStr}
    (hps : ps ≠ []) (h : termFrags ps = some fs) : fs ≠ [] := by
  cases ps with
  | nil => exact absurd rfl hps
  | cons p t =>
    simp only [termFrags] at h
    cases hf : termFrag p with
    | none => simp [hf] at h
    | some f =>
      cases ht : termFrags t with
      | none => simp [hf, ht] at h
      | some fs' =>
        simp only [hf, ht, Option.map_some', Option.some.injEq] at h
        rw [← h]
        simp

theorem termFrags_length {ps : List (Value × Value)} {fs : List GoStr}
    (h : termFrags ps = some fs) : fs.length = ps.length := by
  induction ps generalizing fs with
  | nil =>
    simp only [termFrags, Option.some.injEq] at h
    simp [← h]
  | cons p t ih =>
    simp only [termFrags] at h
    cases hf : termFrag p with
    | none => simp [hf] at h
    | some f =>
      cases ht : termFrags t with
      | none => simp [hf, ht] at h
      | some fs' =>
        simp only [hf, ht, Option.map_some', Option.some.injEq] at h
        rw [← h]
        simp [ih ht]

theorem joinSpace_cons_ne {f : GoStr} {fs : List GoStr} (h : fs ≠ []) :
    joinSpace (f :: fs) = f ++ ' ' :: joinSpace fs := by
  cases fs with
  | nil => exact absurd rfl h
  | cons f2 t => simp [joinSpace]

theorem termPairsLoop_eq (l : List Value) :
    termPairsLoop l =
      (chunkPairs l).bind (fun ps => (termFrags ps).map joinSpace) := by
  induction l using chunkPairs.induct with
  | case1 => rfl
  | case2 x => rfl
  | case3 k v rest ih =>
    simp only [termPairsLoop, chunkPairs]
    cases hk : goStringAssertP k with
    | none =>
      cases hc : chunkPairs rest with
      | none => rfl
      | some ps => simp [termFrags, termFrag, hk]
    | some ks =>
      cases rest with
      | nil => simp [chunkPairs, termFrags, termFrag, hk, joinSpace]
      | cons z rest' =>
        rw [ih]
        cases hc : chunkPairs (z :: rest') with
        | none => rfl
        | some ps =>
          have hps : ps ≠ [] := chunkPairs_cons_ne_nil hc
          cases hf : termFrags ps with
          | none => simp [termFrags, termFrag, hk, hf]
          | some fs =>
            have hfs : fs ≠ [] := termFrags_ne_nil hps hf
            simp only [termFrags, termFrag, hk, hf, Option.map_some',
              Option.some_bind]
            rw [joinSpace_cons_ne hfs]

theorem mapHasKey_iff_mem (m : GoMap) (k : GoStr) :
    mapHasKey m k = true ↔ k ∈ m.map Prod.fst := by
  induction m with
  | nil => simp [mapHasKey]
  | cons p t ih =>
    simp only [mapHasKey, Bool.or_eq_true, decide_eq_true_eq, ih,
      List.map_cons, List.mem_cons]
    constructor
    · rintro (h | h)
      · exact Or.inl h.symm
      · exact Or.inr h
    · rintro (h | h)
      · exact Or.inl h.symm
      · exact Or.inr h

theorem keys_map_replace (m : GoMap) (k : GoStr) (v : Value) :
    (m.map (fun p => if p.1 = k then (k, v) else p)).map Prod.fst =
      m.map Prod.fst := by
  induction m with
  | nil => rfl
  | cons p t ih =>
    by_cases hp : p.1 = k
    · simp [hp, ih]
    · simp [hp, ih]

theorem keysNodup_mapAssign (m : GoMap) (k : GoStr) (v : Value)
    (h : keysNodup m) : keysNodup (mapAssign m k v) := by
  unfold mapAssign
  split
  · unfold keysNodup at h ⊢
    rw [keys_map_replace]
    exact h
  · rename_i hnot
    unfold keysNodup at h ⊢
    rw [List.map_append, List.nodup_append]
    refine ⟨h, by simp, ?_⟩
    intro a ha hb
    simp only [List.map_cons, List.map_nil, List.mem_singleton] at hb
    exact hnot ((mapHasKey_iff_mem m k).mpr (hb ▸ ha))

theorem buildTmpMap_keysNodup (l : List Value) :
    ∀ m m' : GoMap, keysNodup m → buildTmpMap m l = some m' → keysNodup m' := by
  induction l using chunkPairs.induct with
  | case1 =>
    intro m m' hm h
    simp only [buildTmpMap, Option.some.injEq] at h
    rwa [← h]
  | case2 x =>
    intro m m' hm h
    simp [buildTmpMap] at h
  | case3 k v rest ih =>
    intro m m' hm h
    simp only [buildTmpMap] at h
    cases hk : goStringAssertP k with
    | none => simp [hk] at h
    | some ks =>
      simp only [hk] at h
      exact ih _ _ (keysNodup_mapAssign _ _ _ hm) h

/-- Counterexample to C4: on the duplicate key `a` (pairs `a=1`, `a=2`), the
JSON formatter's map holds a single `a` entry, with the last value `2` — the
pairs are merged, not preserved as separate entries — while the LogFmt and
Terminal outputs both keep the two entries in sequence. -/
theorem duplicateKeys_counterexample :
    (JSONFormat recDupKey).1 = some dupMap ∧
    (dupMap.map Prod.fst) = [gs "ts", gs "lvl", gs "msg", gs "a"] ∧
    mapLookup dupMap (gs "a") = some (Value.int 2) ∧
    isSubstr (gs "a=1 a=2") (((LogFmtFormat recDupKey).1).getD []) = true ∧
    isSubstr (gs "a=\"1\" a=\"2\"")
      (((ThemedTerminalFormat 5 (fun _ s => s) recDupKey).1).getD []) = true := by
  decide

/-- C4 (amended): the LogFmt and Terminal formatters emit one entry per
key/value pair, in sequence, duplicates included (their output is the
space-joined list of the per-pair fragments, one fragment per pair); the JSON
formatter instead assigns the pairs into a map, so entries with equal keys
are merged into a single entry (the map's keys are distinct; the
counterexample shows the last value wins). -/
theorem duplicateKeys_amended (r : Record) :
    (∀ ps, chunkPairs (assembledPairs r) = some ps →
      (LogFmtFormat r).1 = some (logFmtRendered ps ++ ['\n'])) ∧
    (∀ ps fs, chunkPairs (defaultTriple r ++ (r.ContextList ++ r.Pairs)) = some ps →
      termFrags ps = some fs → fs.length = ps.length ∧
      termPairsLoop (defaultTriple r ++ (r.ContextList ++ r.Pairs)) =
        some (joinSpace fs)) ∧
    (∀ m, (JSONFormat r).1 = some m → keysNodup m) := by
  refine ⟨fun ps hps => ?_, fun ps fs hps hfs => ⟨termFrags_length hfs, ?_⟩,
    fun m hm => ?_⟩
  · show (logFmtLoop true (assembledPairs r)).map (· ++ ['\n']) = _
    rw [logFmtLoop_true_eq, hps]
    rfl
  · rw [termPairsLoop_eq, hps]
    simp [hfs]
  · exact buildTmpMap_keysNodup _ _ _ (by simp [keysNodup]) hm

/-- Witness for C4 (amended): the duplicate-key record, with the concrete
pair list, Terminal fragments and JSON map. -/
theorem duplicateKeys_amended_witness :
    (LogFmtFormat recDupKey).1 = some (logFmtRendered dupPs ++ ['\n']) ∧
    (dupFs.length = dupPs.length ∧
      termPairsLoop (defaultTriple recDupKey ++
        (recDupKey.ContextList ++ recDupKey.Pairs)) = some (joinSpace dupFs)) ∧
    keysNodup dupMap :=
  ⟨(duplicateKeys_amended recDupKey).1 dupPs (by decide),
   (duplicateKeys_amended recDupKey).2.1 dupPs dupFs (by decide) (by decide),
   (duplicateKeys_amended recDupKey).2.2 dupMap (by decide)⟩

theorem mapHasKey_false_lookup (m : GoMap) (k : GoStr)
    (h : mapHasKey m k = false) : mapLookup m k = none := by
  induction m with
  | nil => rfl
  | cons p t ih =>
    simp only [mapHasKey, Bool.or_eq_false_iff, decide_eq_false_iff_not] at h
    simp [mapLookup, h.1, ih h.2]

theorem mapLookup_some_hasKey (m : GoMap) (k : GoStr) {v : Value}
    (h : mapLookup m k = some v) : mapHasKey m k = true := by
  by_contra hc
  rw [Bool.not_eq_true] at hc
  rw [mapHasKey_false_lookup m k hc] at h
  exact Option.noConfusion h

theorem mapLookup_replace_ne (m : GoMap) (k x : GoStr) (v : Value)
    (hx : x ≠ k) :
    mapLookup (m.map (fun p => if p.1 = k then (k, v) else p)) x =
      mapLookup m x := by
  induction m with
  | nil => rfl
  | cons p t ih =>
    by_cases hp : p.1 = k
    · have hkx : ¬(k = x) := fun hc => hx hc.symm
      have hpx : ¬(p.1 = x) := fun hc => hkx (hp ▸ hc)
      simp [mapLookup, hp, hkx, hpx, ih]
    · by_cases hpx : p.1 = x <;> simp [mapLookup, hp, hpx, hx, ih]

theorem mapLookup_replace_eq (m : GoMap) (k : GoStr) (v : Value)
    (hk : mapHasKey m k = true) :
    mapLookup (m.map (fun p => if p.1 = k then (k, v) else p)) k = some v := by
  induction m with
  | nil => simp [mapHasKey] at hk
  | cons p t ih =>
    by_cases hp : p.1 = k
    · simp [mapLookup, hp]
    · simp only [mapHasKey, Bool.or_eq_true, decide_eq_true_eq] at hk
      rcases hk with hk | hk
      · exact absurd hk hp
      · simp [mapLookup, hp, ih hk]

theorem mapLookup_append_single (m : GoMap) (k x : GoStr) (v : Value) :
    mapLookup (m ++ [(k, v)]) x =
      match mapLookup m x with
      | some w => some w
      | none => if x = k then some v else none := by
  induction m with
  | nil =>
    by_cases hk : k = x
    · simp [mapLookup, hk]
    · have hx : ¬(x = k) := fun hc => hk hc.symm
      simp [mapLookup, hk, hx]
  | cons p t ih =>
    by_cases hp : p.1 = x <;> simp [mapLookup, hp, ih]

theorem mapLookup_mapAssign (m : GoMap) (k x : GoStr) (v : Value) :
    mapLookup (mapAssign m k v) x = if x = k then some v else mapLookup m x := by
  unfold mapAssign
  split
  · rename_i hk
    by_cases hx : x = k
    · rw [if_pos hx, hx, mapLookup_replace_eq m k v hk]
    · rw [if_neg hx, mapLookup_replace_ne m k x v hx]
  · rename_i hk
    rw [Bool.not_eq_true] at hk
    rw [mapLookup_append_single]
    by_cases hx : x = k
    · have hnone : mapLookup m x = none := by
        rw [hx]
        exact mapHasKey_false_lookup m k hk
      rw [hnone, if_pos hx]
    · cases hl : mapLookup m x <;> simp [hx, hl]

theorem mapLookup_foldl_assign (l : List (GoStr × Value)) (m : GoMap) (k : GoStr) :
    mapLookup (l.foldl (fun m p => mapAssign m p.1 p.2) m) k =
      match lookupLast l k with
      | some v => some v
      | none => mapLookup m k := by
  induction l generalizing m with
  | nil => rfl
  | cons p t ih =>
    simp only [List.foldl_cons, lookupLast]
    rw [ih]
    cases ht : lookupLast t k with
    | some v => rfl
    | none =>
      rw [mapLookup_mapAssign]
      by_cases hx : k = p.1
      · rw [if_pos hx, if_pos hx.symm]
      · rw [if_neg hx, if_neg (fun hc => hx hc.symm)]

theorem lookupLast_eq_mapLookup (l : GoMap) (k : GoStr) (h : keysNodup l) :
    lookupLast l k = mapLookup l k := by
  induction l with
  | nil => rfl
  | cons p t ih =>
    unfold keysNodup at h
    simp only [List.map_cons, List.nodup_cons] at h
    unfold lookupLast mapLookup
    rw [ih h.2]
    cases hl : mapLookup t k with
    | none => rfl
    | some v =>
      have hkmem : k ∈ t.map Prod.fst :=
        (mapHasKey_iff_mem t k).mp (mapLookup_some_hasKey t k hl)
      have hp : ¬(p.1 = k) := fun hc => h.1 (hc ▸ hkmem)
      simp [hp]

/-- C9: `merge(a, b)` leaves both inputs unchanged (the Go code only assigns
into the freshly made `newCtx`) and produces a mapping in which every key of
`b` carries `b`'s value and every other key of `a` carries `a`'s value — all
of `a`'s entries overlaid by all of `b`'s, `b` winning on shared keys. -/
theorem Ctx_merge_spec (a b : Ctx) (ha : keysNodup a) (hb : keysNodup b) :
    (Ctx.merge a b).2.1 = a ∧ (Ctx.merge a b).2.2 = b ∧
    ∀ k, mapLookup (Ctx.merge a b).1 k =
      match mapLookup b k with
      | some v => some v
      | none => mapLookup a k := by
  refine ⟨rfl, rfl, fun k => ?_⟩
  show mapLookup
    (b.foldl (fun m p => mapAssign m p.1 p.2)
      (a.foldl (fun m p => mapAssign m p.1 p.2) [])) k = _
  rw [mapLookup_foldl_assign, mapLookup_foldl_assign,
    lookupLast_eq_mapLookup b k hb, lookupLast_eq_mapLookup a k ha]
  cases mapLookup b k <;> cases mapLookup a k <;> rfl

/-- Witness for C9: merging `{x: 1, y: 2}` with `{y: 9, z: 3}` leaves the
first input unchanged and yields `y = 9` (`b` wins), `x = 1`, `z = 3`. -/
theorem Ctx_merge_spec_witness :
    (Ctx.merge ctxA ctxB).2.1 = ctxA ∧
    mapLookup (Ctx.merge ctxA ctxB).1 (gs "y") = some (Value.int 9) ∧
    mapLookup (Ctx.merge ctxA ctxB).1 (gs "x") = some (Value.int 1) ∧
    mapLookup (Ctx.merge ctxA ctxB).1 (gs "z") = some (Value.int 3) := by
  have h := Ctx_merge_spec ctxA ctxB (by decide) (by decide)
  exact ⟨h.1, (h.2.2 (gs "y")).trans (by decide),
    (h.2.2 (gs "x")).trans (by decide), (h.2.2 (gs "z")).trans (by decide)⟩
